import Mathlib

/-!
# ghcr-cli: a shallow embedding of `main.go`

Conventions of the embedding.

* A Go `string` is a Lean `String`: a sequence of Unicode code points (the
  text is taken to be valid UTF-8, so ranging over runes and over bytes agree
  for the ASCII separator `/`).
* A Go `error` is an `Option String`: `none` is `nil`, `some msg` carries the
  text of `err.Error()`.
* Several Go results are a Lean tuple, in the order of the source.
* `int64` identifiers are `Int`; they are only copied, never computed with.
* Effects (standard output, subprocesses, reading standard input,
  `log.Fatal`) are recorded as a list of `Event`s in program order; what the
  outside world answers is read from an `Env`.
-/

namespace GhcrCli

/-! ## Data model (main.go, lines 15-38) -/

structure Owner where
  Login : String
  deriving DecidableEq, Repr

structure Repository where
  FullName : String
  deriving DecidableEq, Repr

structure Package where
  Name : String
  Owner : Owner
  Repository : Repository
  deriving DecidableEq, Repr

structure Version where
  Name : String
  ID : Int
  deriving DecidableEq, Repr

structure OutputVersion where
  Package : String
  Name : String
  ID : Int
  deriving DecidableEq, Repr

/-! ## The parts of the Go standard library that the program calls -/

namespace strings

/-- Pieces of a rune sequence between the occurrences of `sep`; there is
always one piece more than there are separators. -/
def splitRunes (sep : Char) : List Char → List (List Char)
  | [] => [[]]
  | c :: cs =>
    if c = sep then [] :: splitRunes sep cs
    else
      match splitRunes sep cs with
      | [] => [[c]]
      | p :: ps => (c :: p) :: ps

/-- Go `strings.Split(s, sep)` for a separator of one rune, which is the only
way the program calls it (`strings.Split(input, "/")`). -/
def Split (s : String) (sep : Char) : List String :=
  (splitRunes sep s.data).map String.mk

end strings

/-! ## Argument parser (main.go, lines 188-194) -/

/-- Text of the error of `parseOwnerRepo`. -/
def invalidFormatError : String :=
  "invalid owner/repo format. Expected \x27owner/repo\x27"

/-- Go `parseOwnerRepo`: returns `(owner, repo, err)`. -/
def parseOwnerRepo (input : String) : String × String × Option String :=
  let parts := strings.Split input '/'
  if parts.length ≠ 2 then
    ("", "", some invalidFormatError)
  else
    (parts.getD 0 "", parts.getD 1 "", none)

/-- Number of `/` runes of a string. -/
def slashCount (s : String) : Nat := s.data.count '/'

namespace unicode

/-- Go `unicode.IsSpace`: the Latin-1 switch, then the `White_Space` range
table for the runes above Latin-1. -/
def IsSpace (r : Char) : Bool :=
  if r.toNat ≤ 0xFF then
    r.toNat = 0x09 || r.toNat = 0x0A || r.toNat = 0x0B || r.toNat = 0x0C ||
      r.toNat = 0x0D || r.toNat = 0x20 || r.toNat = 0x85 || r.toNat = 0xA0
  else
    r.toNat = 0x1680 || (0x2000 ≤ r.toNat && r.toNat ≤ 0x200A) ||
      r.toNat = 0x2028 || r.toNat = 0x2029 || r.toNat = 0x202F ||
      r.toNat = 0x205F || r.toNat = 0x3000

/-- Go `unicode.ToLower`: the ASCII fast path is in the function itself; a
rune above ASCII is looked up in the case table of the Unicode database,
which is not part of this repository and is the parameter `caseTable`. -/
def ToLower (caseTable : Char → Char) (r : Char) : Char :=
  if r.toNat ≤ 0x7F then
    if 0x41 ≤ r.toNat ∧ r.toNat ≤ 0x5A then Char.ofNat (r.toNat + 0x20) else r
  else
    caseTable r

end unicode

namespace strings

/-- Go `strings.TrimSpace`: drops the leading and the trailing runes that
`unicode.IsSpace` accepts. -/
def TrimSpace (s : String) : String :=
  String.mk ((s.data.dropWhile unicode.IsSpace).rdropWhile unicode.IsSpace)

/-- Go `strings.ToLower`: every rune mapped with `unicode.ToLower`. -/
def ToLower (caseTable : Char → Char) (s : String) : String :=
  String.mk (s.data.map (unicode.ToLower caseTable))

end strings

namespace bufio

/-- Go `(*bufio.Reader).ReadString(delim)` on a reader over the given
pending input: the text up to and including the first `delim`, or everything
together with the error `EOF` when the input ends before a `delim`. -/
def ReadString (delim : Char) : List Char → List Char × Option String
  | [] => ([], some "EOF")
  | c :: cs =>
    if c = delim then ([c], none)
    else ((c :: (ReadString delim cs).1), (ReadString delim cs).2)

end bufio

/-! ## Effects -/

/-- What the outside world answers to the program during one run. -/
structure Env where
  /-- Answer of `exec.LookPath(file)`: path and error. -/
  LookPath : String → String × Option String
  /-- Answer of `exec.Command(name, args...).CombinedOutput()`: output and error. -/
  CombinedOutput : String → List String → String × Option String
  /-- Answer of `json.Unmarshal(output, &packages)`. -/
  UnmarshalPackages : String → Except String (List Package)
  /-- Answer of `json.Unmarshal(output, &versions)`. -/
  UnmarshalVersions : String → Except String (List Version)
  /-- Answer of `json.MarshalIndent(outputVersions, "", "  ")`; the argument
  is a Go slice, `none` being the nil slice. -/
  MarshalIndent : Option (List OutputVersion) → Except String String
  /-- Text waiting on standard input. -/
  Stdin : String
  /-- Lower-case mapping of the Unicode case table for runes above ASCII. -/
  caseTable : Char → Char

/-- Observable actions of a run, in program order. -/
inductive Event where
  /-- A subprocess was started and waited for. -/
  | run (name : String) (args : List String)
  /-- Text written to standard output. -/
  | stdout (text : String)
  /-- One `ReadString` on standard input. -/
  | readLine
  /-- Go `log.Fatal`: message on standard error, then exit status 1. -/
  | fatal (msg : String)
  /-- Go run-time panic (index out of range). -/
  | panic
  deriving DecidableEq, Repr

/-- A subprocess call that asks for a deletion: it carries the method flag
`-X DELETE`. -/
def Event.isDeleteCall : Event → Bool
  | .run _ args => ["-X", "DELETE"] <:+: args
  | _ => false

/-- A subprocess call. -/
def Event.isRun : Event → Bool
  | .run _ _ => true
  | _ => false

/-! ## Registry client (main.go, lines 127-186) -/

/-- Arguments of the helper in `getPackageName`. -/
def getPackageNameArgs : List String :=
  ["api",
   "-H", "Accept: application/vnd.github+json",
   "-H", "X-GitHub-Api-Version: 2022-11-28",
   "/user/packages?package_type=container"]

/-- Arguments of the helper in `getPackageVersions`. -/
def getPackageVersionsArgs (packageName : String) : List String :=
  ["api",
   "-H", "Accept: application/vnd.github+json",
   "-H", "X-GitHub-Api-Version: 2022-11-28",
   "/user/packages/container/" ++ packageName ++ "/versions"]

/-- Arguments of the helper in `deletePackageVersion`. -/
def deletePackageVersionArgs (packageName versionID : String) : List String :=
  ["api",
   "-H", "Accept: application/vnd.github+json",
   "-H", "X-GitHub-Api-Version: 2022-11-28",
   "-X", "DELETE",
   "/user/packages/container/" ++ packageName ++ "/versions/" ++ versionID]

/-- The `for _, pkg := range packages` loop of `getPackageName`: the name of
the first package whose repository full name is `fullName`, or `none` when
the loop runs to its end. -/
def searchPackages (fullName : String) : List Package → Option String
  | [] => none
  | pkg :: rest =>
    if pkg.Repository.FullName = fullName then some pkg.Name
    else searchPackages fullName rest

/-- Go `getPackageName`: `(name, err)` and the events of the call. -/
def getPackageName (env : Env) (owner repo : String) :
    (String × Option String) × List Event :=
  let trace := [Event.run "gh" getPackageNameArgs]
  match env.CombinedOutput "gh" getPackageNameArgs with
  | (output, some err) =>
    (("", some ("error listing packages: " ++ err ++ "\nOutput: " ++ output)), trace)
  | (output, none) =>
    match env.UnmarshalPackages output with
    | .error err => (("", some ("error parsing JSON: " ++ err)), trace)
    | .ok packages =>
      match searchPackages (owner ++ "/" ++ repo) packages with
      | some name => ((name, none), trace)
      | none => (("", some ("package not found for " ++ owner ++ "/" ++ repo)), trace)

/-- Go `getPackageVersions`: `(versions, err)` and the events of the call. -/
def getPackageVersions (env : Env) (packageName : String) :
    (List Version × Option String) × List Event :=
  let trace := [Event.run "gh" (getPackageVersionsArgs packageName)]
  match env.CombinedOutput "gh" (getPackageVersionsArgs packageName) with
  | (output, some err) =>
    (([], some ("error getting versions: " ++ err ++ "\nOutput: " ++ output)), trace)
  | (output, none) =>
    match env.UnmarshalVersions output with
    | .error err => (([], some ("error parsing JSON: " ++ err)), trace)
    | .ok versions => ((versions, none), trace)

/-- Go `deletePackageVersion`: `err` and the events of the call. -/
def deletePackageVersion (env : Env) (packageName versionID : String) :
    Option String × List Event :=
  let trace := [Event.run "gh" (deletePackageVersionArgs packageName versionID)]
  match env.CombinedOutput "gh" (deletePackageVersionArgs packageName versionID) with
  | (output, some err) =>
    (some ("error deleting version: " ++ err ++ "\nOutput: " ++ output), trace)
  | (_, none) => (none, trace)

/-! ## Helper check and confirmation (main.go, lines 196-213) -/

/-- Text of the error of `checkGHInstalled`. -/
def ghMissingError : String :=
  "GitHub CLI (gh) is not installed or not in PATH. Please install it and try again"

/-- Go `checkGHInstalled`. -/
def checkGHInstalled (env : Env) : Option String :=
  match (env.LookPath "gh").2 with
  | some _ => some ghMissingError
  | none => none

/-- Prompt of `confirmDeletion`. -/
def confirmPrompt (packageName versionID : String) : String :=
  "Are you sure you want to delete image " ++ packageName ++ " version " ++
    versionID ++ "? (y/N): "

/-- Go `confirmDeletion`: `some b` when it returns `b`, `none` when it ends
the process with `log.Fatalf`; and the events of the call. -/
def confirmDeletion (env : Env) (packageName versionID : String) :
    Option Bool × List Event :=
  let trace := [Event.stdout (confirmPrompt packageName versionID), Event.readLine]
  match bufio.ReadString '\n' env.Stdin.data with
  | (_, some err) => (none, trace ++ [Event.fatal ("Error reading input: " ++ err)])
  | (response, none) =>
    let response := strings.ToLower env.caseTable (strings.TrimSpace (String.mk response))
    (some (response == "y" || response == "yes"), trace)

/-! ## Command handlers (main.go, lines 43-117) -/

/-- Go `make([]OutputVersion, n)`: a non-nil slice of `n` zero values. -/
def makeOutputVersions (n : Nat) : Option (List OutputVersion) :=
  some (List.replicate n { Package := "", Name := "", ID := 0 })

/-- Lines 67-74 of the list handler: `make` followed by the loop
`for i, version := range versions` that assigns `outputVersions[i]`. -/
def buildOutputVersions (packageName : String) (versions : List Version) :
    Option (List OutputVersion) :=
  versions.enum.foldl
    (fun outputVersions iv =>
      outputVersions.map fun l =>
        l.set iv.1 { Package := packageName, Name := iv.2.Name, ID := iv.2.ID })
    (makeOutputVersions versions.length)

/-- The `Run` function of `listCmd`: the events of one run on `args`. -/
def listCmdRun (env : Env) (args : List String) : List Event :=
  match checkGHInstalled env with
  | some err => [Event.fatal err]
  | none =>
    match args[0]? with
    | none => [Event.panic]
    | some arg0 =>
      match parseOwnerRepo arg0 with
      | (_, _, some err) => [Event.fatal err]
      | (owner, repo, none) =>
        match getPackageName env owner repo with
        | ((_, some err), t1) => t1 ++ [Event.fatal err]
        | ((packageName, none), t1) =>
          match getPackageVersions env packageName with
          | ((_, some err), t2) => t1 ++ t2 ++ [Event.fatal err]
          | ((versions, none), t2) =>
            match env.MarshalIndent (buildOutputVersions packageName versions) with
            | .error err =>
              t1 ++ t2 ++ [Event.fatal ("Error creating JSON output: " ++ err)]
            | .ok jsonOutput => t1 ++ t2 ++ [Event.stdout (jsonOutput ++ "\n")]

/-- The `Run` function of `deleteCmd`: the events of one run on `args`. -/
def deleteCmdRun (env : Env) (args : List String) : List Event :=
  match checkGHInstalled env with
  | some err => [Event.fatal err]
  | none =>
    match args[0]? with
    | none => [Event.panic]
    | some arg0 =>
      match parseOwnerRepo arg0 with
      | (_, _, some err) => [Event.fatal err]
      | (owner, repo, none) =>
        match getPackageName env owner repo with
        | ((_, some err), t1) => t1 ++ [Event.fatal err]
        | ((packageName, none), t1) =>
          match args[1]? with
          | none => t1 ++ [Event.panic]
          | some versionID =>
            match confirmDeletion env packageName versionID with
            | (none, t2) => t1 ++ t2
            | (some false, t2) => t1 ++ t2 ++ [Event.stdout "Deletion cancelled.\n"]
            | (some true, t2) =>
              match deletePackageVersion env packageName versionID with
              | (some err, t3) => t1 ++ t2 ++ t3 ++ [Event.fatal err]
              | (none, t3) =>
                t1 ++ t2 ++ t3 ++
                  [Event.stdout ("Successfully deleted image " ++ packageName ++
                    " version " ++ versionID ++ "\n")]

/-! ## Vocabulary of the specification -/

/-- The spellings of `y` and `yes` in every mixture of upper and lower case. -/
def yesSpellings : List String :=
  ["y", "Y", "yes", "yeS", "yEs", "yES", "Yes", "YeS", "YEs", "YES"]

/-- The test that `confirmDeletion` applies to the trimmed answer: its lower-case
form is `y` or `yes`. -/
def isYes (caseTable : Char → Char) (s : String) : Bool :=
  strings.ToLower caseTable s == "y" || strings.ToLower caseTable s == "yes"

/-- The two `-H` header arguments that every helper call carries. -/
def ghHeaders : List String :=
  ["-H", "Accept: application/vnd.github+json",
   "-H", "X-GitHub-Api-Version: 2022-11-28"]

/-- One element of the indented JSON array, for texts that need no escaping. -/
def sampleObject (o : OutputVersion) : String :=
  "  \x7b\n    \"package\": \"" ++ o.Package ++ "\",\n    \"name\": \"" ++ o.Name ++
    "\",\n    \"id\": " ++ toString o.ID ++ "\n  \x7d"

/-- The text of `json.MarshalIndent(outputVersions, "", "  ")` for names that
need no escaping: `null` for the nil slice, `[]` for the empty slice, and one
indented object per element otherwise. It is the encoder of `sampleEnv`. -/
def sampleMarshalIndent : Option (List OutputVersion) → String
  | none => "null"
  | some [] => "[]"
  | some (o :: os) => "[\n" ++ ",\n".intercalate ((o :: os).map sampleObject) ++ "\n]"

/-- An environment for concrete runs: the helper is on the search path iff
`installed`, the package listing decodes to `packages`, the version listing
to `versions`, every subprocess succeeds, and `stdin` waits on standard
input. The JSON encoder is `sampleMarshalIndent`, the case table is the
identity. -/
def sampleEnv (installed : Bool) (packages : List Package) (versions : List Version)
    (stdin : String) : Env where
  LookPath := fun file =>
    if installed then ("/usr/bin/" ++ file, none)
    else ("", some "executable file not found in $PATH")
  CombinedOutput := fun _ _ => ("", none)
  UnmarshalPackages := fun _ => .ok packages
  UnmarshalVersions := fun _ => .ok versions
  MarshalIndent := fun outputVersions => .ok (sampleMarshalIndent outputVersions)
  Stdin := stdin
  caseTable := id

/-- Two packages of one owner. -/
def samplePackages : List Package :=
  [{ Name := "tool", Owner := { Login := "a" }, Repository := { FullName := "a/b" } },
   { Name := "other", Owner := { Login := "a" }, Repository := { FullName := "a/c" } }]

/-! ## Lemmas on splitting -/

theorem splitRunes_ne_nil (sep : Char) (l : List Char) :
    strings.splitRunes sep l ≠ [] := by
  cases l with
  | nil => simp [strings.splitRunes]
  | cons c cs =>
    simp only [strings.splitRunes]
    split
    · simp
    · split <;> simp

theorem splitRunes_length (sep : Char) (l : List Char) :
    (strings.splitRunes sep l).length = l.count sep + 1 := by
  induction l with
  | nil => simp [strings.splitRunes]
  | cons c cs ih =>
    simp only [strings.splitRunes]
    by_cases h : c = sep
    · subst h
      simp [ih]
    · have hne : (c == sep) = false := by simpa using h
      rw [if_neg h, List.count_cons, hne]
      cases hs : strings.splitRunes sep cs with
      | nil => exact absurd hs (splitRunes_ne_nil sep cs)
      | cons p ps =>
        rw [hs] at ih
        simpa using ih

theorem splitRunes_of_not_mem (sep : Char) (l : List Char) (h : sep ∉ l) :
    strings.splitRunes sep l = [l] := by
  induction l with
  | nil => simp [strings.splitRunes]
  | cons c cs ih =>
    have hc : c ≠ sep := fun e => h (by simp [e])
    have hcs : sep ∉ cs := fun e => h (by simp [e])
    simp [strings.splitRunes, hc, ih hcs]

theorem splitRunes_append (sep : Char) (a b : List Char) (ha : sep ∉ a) :
    strings.splitRunes sep (a ++ sep :: b) = a :: strings.splitRunes sep b := by
  induction a with
  | nil => simp [strings.splitRunes]
  | cons c cs ih =>
    have hc : c ≠ sep := fun e => ha (by simp [e])
    have hcs : sep ∉ cs := fun e => ha (by simp [e])
    simp [strings.splitRunes, hc, ih hcs]

/-- A split into exactly two pieces determines the input: the pieces are the
text before and after the only separator. -/
theorem splitRunes_eq_pair (sep : Char) (l a b : List Char)
    (h : strings.splitRunes sep l = [a, b]) :
    l = a ++ sep :: b ∧ sep ∉ a ∧ sep ∉ b := by
  induction l generalizing a with
  | nil => simp [strings.splitRunes] at h
  | cons c cs ih =>
    simp only [strings.splitRunes] at h
    by_cases hc : c = sep
    · subst hc
      rw [if_pos rfl] at h
      have h1 : a = [] := by
        have := congrArg List.head? h
        simpa using this.symm
      have h2 : strings.splitRunes c cs = [b] := by
        have := congrArg List.tail h
        simpa using this
      have hlen := splitRunes_length c cs
      rw [h2] at hlen
      have hcount : cs.count c = 0 := by simpa using hlen.symm
      have hnot : c ∉ cs := List.count_eq_zero.mp hcount
      have hb : cs = b := by
        have := splitRunes_of_not_mem c cs hnot
        rw [h2] at this
        simpa using this.symm
      subst h1
      subst hb
      simp [hnot]
    · rw [if_neg hc] at h
      cases hs : strings.splitRunes sep cs with
      | nil => exact absurd hs (splitRunes_ne_nil sep cs)
      | cons p ps =>
        rw [hs] at h
        simp only [List.cons.injEq] at h
        obtain ⟨h1, h2⟩ := h
        subst h1
        subst h2
        obtain ⟨e, hp, hb⟩ := ih p hs
        refine ⟨by simp [e], ?_, hb⟩
        intro hm
        rcases List.mem_cons.mp hm with hm | hm
        · exact hc hm.symm
        · exact hp hm

theorem Split_length (s : String) (sep : Char) :
    (strings.Split s sep).length = s.data.count sep + 1 := by
  simp [strings.Split, splitRunes_length]

/-! ## The argument parser -/

theorem parseOwnerRepo_of_split (input : String) (a b : List Char)
    (h : strings.splitRunes '/' input.data = [a, b]) :
    parseOwnerRepo input = (String.mk a, String.mk b, none) := by
  simp [parseOwnerRepo, strings.Split, h]

theorem parseOwnerRepo_of_count_ne (input : String) (h : slashCount input ≠ 1) :
    parseOwnerRepo input = ("", "", some invalidFormatError) := by
  have hlen : (strings.Split input '/').length ≠ 2 := by
    rw [Split_length]
    unfold slashCount at h
    omega
  simp only [parseOwnerRepo]
  rw [if_pos hlen]

theorem split_pair_of_count_one (input : String) (h : slashCount input = 1) :
    ∃ a b, strings.splitRunes '/' input.data = [a, b] := by
  have hlen := splitRunes_length '/' input.data
  unfold slashCount at h
  rw [h] at hlen
  match hs : strings.splitRunes '/' input.data, hlen with
  | [a, b], _ => exact ⟨a, b, rfl⟩

theorem data_join (owner repo : String) :
    (owner ++ "/" ++ repo).data = owner.data ++ '/' :: repo.data := by
  simp [String.data_append]

/-- C2. An input whose number of `/` runes is not exactly one (none, or two
or more) makes `parseOwnerRepo` fail with the invalid-format error, with empty
owner and empty repo. -/
theorem parseOwnerRepo_rejects_wrong_separator_count (input : String)
    (h : slashCount input ≠ 1) :
    parseOwnerRepo input = ("", "", some invalidFormatError) :=
  parseOwnerRepo_of_count_ne input h

theorem parseOwnerRepo_rejects_wrong_separator_count_witness :
    slashCount "a/b/c" ≠ 1 ∧
      parseOwnerRepo "a/b/c" = ("", "", some invalidFormatError) :=
  ⟨by decide, parseOwnerRepo_rejects_wrong_separator_count "a/b/c" (by decide)⟩

/-- C3, refuted as stated. The inputs `/`, `a/` and `/b` are accepted by
`parseOwnerRepo` with an empty owner or an empty repo, so a run without error
does not give two non-empty parts. -/
theorem parseOwnerRepo_accepts_empty_parts :
    parseOwnerRepo "/" = ("", "", none) ∧
      parseOwnerRepo "a/" = ("a", "", none) ∧
      parseOwnerRepo "/b" = ("", "b", none) ∧
      ¬ (∀ input : String, (parseOwnerRepo input).2.2 = none →
          (parseOwnerRepo input).1 ≠ "" ∧ (parseOwnerRepo input).2.1 ≠ "") := by
  refine ⟨by decide, by decide, by decide, ?_⟩
  intro h
  exact (h "/" (by decide)).1 (by decide)

/-- C3, amended. `parseOwnerRepo` returns no error exactly when the input has
exactly one `/`, that is, when splitting on `/` yields exactly two parts; the
owner and the repo returned are then the text before and the text after that
separator, neither of them contains a `/`, and either may be empty. -/
theorem parseOwnerRepo_succeeds_iff_one_separator (input : String) :
    ((parseOwnerRepo input).2.2 = none ↔ slashCount input = 1) ∧
      ((parseOwnerRepo input).2.2 = none →
        input = (parseOwnerRepo input).1 ++ "/" ++ (parseOwnerRepo input).2.1 ∧
          '/' ∉ (parseOwnerRepo input).1.data ∧
          '/' ∉ (parseOwnerRepo input).2.1.data) := by
  by_cases h : slashCount input = 1
  · obtain ⟨a, b, hs⟩ := split_pair_of_count_one input h
    obtain ⟨e, ha, hb⟩ := splitRunes_eq_pair '/' input.data a b hs
    rw [parseOwnerRepo_of_split input a b hs]
    refine ⟨by simp [h], fun _ => ⟨?_, ha, hb⟩⟩
    apply String.ext
    rw [data_join]
    exact e
  · rw [parseOwnerRepo_of_count_ne input h]
    simp [h]

theorem parseOwnerRepo_succeeds_iff_one_separator_witness :
    ((parseOwnerRepo "a/").2.2 = none ↔ slashCount "a/" = 1) ∧
      ((parseOwnerRepo "a/").2.2 = none →
        "a/" = (parseOwnerRepo "a/").1 ++ "/" ++ (parseOwnerRepo "a/").2.1 ∧
          '/' ∉ (parseOwnerRepo "a/").1.data ∧
          '/' ∉ (parseOwnerRepo "a/").2.1.data) :=
  parseOwnerRepo_succeeds_iff_one_separator "a/"

/-- C4. For an owner and a repo without `/` (non-empty or not),
`parseOwnerRepo (owner ++ "/" ++ repo)` succeeds with exactly `(owner, repo)`;
in particular `parseOwnerRepo "a/b"` is `("a", "b")`. Hence the full name that
`getPackageName` builds from the parsed pair is the original argument. -/
theorem parseOwnerRepo_join (owner repo : String)
    (ho : '/' ∉ owner.data) (hr : '/' ∉ repo.data) :
    parseOwnerRepo (owner ++ "/" ++ repo) = (owner, repo, none) ∧
      parseOwnerRepo "a/b" = ("a", "b", none) ∧
      (parseOwnerRepo (owner ++ "/" ++ repo)).1 ++ "/" ++
          (parseOwnerRepo (owner ++ "/" ++ repo)).2.1 = owner ++ "/" ++ repo := by
  have hs : strings.splitRunes '/' (owner ++ "/" ++ repo).data = [owner.data, repo.data] := by
    rw [data_join, splitRunes_append '/' _ _ ho, splitRunes_of_not_mem '/' _ hr]
  have hp := parseOwnerRepo_of_split _ _ _ hs
  refine ⟨hp, by decide, ?_⟩
  rw [hp]

theorem parseOwnerRepo_join_witness :
    '/' ∉ "zinrai".data ∧ '/' ∉ "ghcr-cli".data ∧
      parseOwnerRepo ("zinrai" ++ "/" ++ "ghcr-cli") = ("zinrai", "ghcr-cli", none) :=
  ⟨by decide, by decide, (parseOwnerRepo_join "zinrai" "ghcr-cli" (by decide) (by decide)).1⟩

/-! ## Package resolution -/

theorem searchPackages_eq_none_iff (fullName : String) (packages : List Package) :
    searchPackages fullName packages = none ↔
      ∀ p ∈ packages, p.Repository.FullName ≠ fullName := by
  induction packages with
  | nil => simp [searchPackages]
  | cons pkg rest ih =>
    simp only [searchPackages]
    by_cases h : pkg.Repository.FullName = fullName
    · simp [h]
    · simp [h, ih]

theorem searchPackages_first (fullName : String) (packages : List Package) :
    ∀ (i : Nat) (p : Package), packages[i]? = some p →
      p.Repository.FullName = fullName →
      (∀ (j : Nat) (q : Package), j < i → packages[j]? = some q →
        q.Repository.FullName ≠ fullName) →
      searchPackages fullName packages = some p.Name := by
  induction packages with
  | nil => intro i p h; simp at h
  | cons pkg rest ih =>
    intro i p hi hp hfirst
    cases i with
    | zero =>
      have e : pkg = p := by simpa using hi
      subst e
      simp [searchPackages, hp]
    | succ k =>
      have hne : pkg.Repository.FullName ≠ fullName :=
        hfirst 0 pkg (Nat.succ_pos k) (by simp)
      simp only [searchPackages, if_neg hne]
      refine ih k p (by simpa using hi) hp ?_
      intro j q hj hq
      exact hfirst (j + 1) q (Nat.succ_lt_succ hj) (by simpa using hq)

theorem getPackageName_of_decoded (env : Env) (owner repo output : String)
    (packages : List Package)
    (hrun : env.CombinedOutput "gh" getPackageNameArgs = (output, none))
    (hdec : env.UnmarshalPackages output = .ok packages) :
    (getPackageName env owner repo).1 =
      match searchPackages (owner ++ "/" ++ repo) packages with
      | some name => (name, none)
      | none => ("", some ("package not found for " ++ owner ++ "/" ++ repo)) := by
  simp only [getPackageName, hrun, hdec]
  cases searchPackages (owner ++ "/" ++ repo) packages <;> rfl

/-- C1. When the package listing has run and decoded to `packages`,
`getPackageName` returns the name of the entry of lowest index whose
repository full name is `owner ++ "/" ++ repo`, without error; and it fails
with the error `package not found for owner/repo` exactly when no entry of
the list has that full name. -/
theorem getPackageName_returns_first_match (env : Env) (owner repo output : String)
    (packages : List Package)
    (hrun : env.CombinedOutput "gh" getPackageNameArgs = (output, none))
    (hdec : env.UnmarshalPackages output = .ok packages) :
    (∀ (i : Nat) (p : Package), packages[i]? = some p →
        p.Repository.FullName = owner ++ "/" ++ repo →
        (∀ (j : Nat) (q : Package), j < i → packages[j]? = some q →
          q.Repository.FullName ≠ owner ++ "/" ++ repo) →
        (getPackageName env owner repo).1 = (p.Name, none)) ∧
      ((getPackageName env owner repo).1 =
          ("", some ("package not found for " ++ owner ++ "/" ++ repo)) ↔
        ∀ p ∈ packages, p.Repository.FullName ≠ owner ++ "/" ++ repo) ∧
      ((getPackageName env owner repo).1.2 ≠ none ↔
        ∀ p ∈ packages, p.Repository.FullName ≠ owner ++ "/" ++ repo) := by
  have hres := getPackageName_of_decoded env owner repo output packages hrun hdec
  refine ⟨?_, ?_, ?_⟩
  · intro i p hi hp hfirst
    rw [hres, searchPackages_first _ packages i p hi hp hfirst]
  · rw [hres, ← searchPackages_eq_none_iff]
    cases searchPackages (owner ++ "/" ++ repo) packages <;> simp
  · rw [hres, ← searchPackages_eq_none_iff]
    cases searchPackages (owner ++ "/" ++ repo) packages <;> simp

theorem getPackageName_returns_first_match_witness :
    (getPackageName (sampleEnv true samplePackages [] "") "a" "c").1 = ("other", none) ∧
      (getPackageName (sampleEnv true samplePackages [] "") "a" "d").1 =
        ("", some "package not found for a/d") :=
  ⟨(getPackageName_returns_first_match (sampleEnv true samplePackages [] "") "a" "c" ""
      samplePackages rfl rfl).1 1 _ rfl (by decide)
      (by
        intro j q hj hq
        have hj0 : j = 0 := by omega
        subst hj0
        have e : samplePackages[0]? =
            some { Name := "tool", Owner := { Login := "a" },
                   Repository := { FullName := "a/b" } } := rfl
        rw [e] at hq
        cases hq
        decide),
    by decide⟩

/-! ## The helper check -/

/-- C9. When `gh` is not found on the search path, the list handler and the
delete handler both end at once with the error that the GitHub CLI is not
installed, whatever the arguments are: the fatal error is the only event of
the run, so no subprocess is started, nothing is read from standard input
and nothing is written to standard output. -/
theorem handlers_fail_first_without_gh (env : Env) (args : List String)
    (h : (env.LookPath "gh").2 ≠ none) :
    listCmdRun env args = [Event.fatal ghMissingError] ∧
      deleteCmdRun env args = [Event.fatal ghMissingError] := by
  have hc : checkGHInstalled env = some ghMissingError := by
    unfold checkGHInstalled
    cases hl : (env.LookPath "gh").2 with
    | none => exact absurd hl h
    | some e => rfl
  constructor
  · simp only [listCmdRun, hc]
  · simp only [deleteCmdRun, hc]

theorem handlers_fail_first_without_gh_witness :
    listCmdRun (sampleEnv false samplePackages [] "y\n") ["not-a-repo"] =
        [Event.fatal ghMissingError] ∧
      deleteCmdRun (sampleEnv false samplePackages [] "y\n") ["a/b", "7"] =
        [Event.fatal ghMissingError] :=
  ⟨(handlers_fail_first_without_gh (sampleEnv false samplePackages [] "y\n")
      ["not-a-repo"] (by decide)).1,
    (handlers_fail_first_without_gh (sampleEnv false samplePackages [] "y\n")
      ["a/b", "7"] (by decide)).2⟩

/-! ## Arguments of the helper -/

theorem not_isInfix_of_not_mem {α : Type} (x y : α) (l : List α) (h : x ∉ l) :
    ¬ [x, y] <:+: l := by
  intro hin
  exact h (hin.subset (by simp))

theorem slash_prefixed_ne_flag (rest : String) : "/user" ++ rest ≠ "-X" := by
  intro h
  have hd := congrArg String.data h
  rw [String.data_append] at hd
  have e1 : "/user".data = ['/', 'u', 's', 'e', 'r'] := rfl
  have e2 : "-X".data = ['-', 'X'] := rfl
  rw [e1, e2] at hd
  have h0 : some '/' = some '-' := congrArg List.head? hd
  exact absurd h0 (by decide)

theorem getPackageName_trace (env : Env) (owner repo : String) :
    (getPackageName env owner repo).2 = [Event.run "gh" getPackageNameArgs] := by
  unfold getPackageName
  split
  · rfl
  · split
    · rfl
    · split <;> rfl

theorem getPackageVersions_trace (env : Env) (n : String) :
    (getPackageVersions env n).2 = [Event.run "gh" (getPackageVersionsArgs n)] := by
  unfold getPackageVersions
  split
  · rfl
  · split <;> rfl

theorem deletePackageVersion_trace (env : Env) (n v : String) :
    (deletePackageVersion env n v).2 = [Event.run "gh" (deletePackageVersionArgs n v)] := by
  unfold deletePackageVersion
  split <;> rfl

theorem isDeleteCall_delete (n v : String) :
    (Event.run "gh" (deletePackageVersionArgs n v)).isDeleteCall = true := by
  simp only [Event.isDeleteCall, deletePackageVersionArgs, decide_eq_true_eq]
  exact ⟨["api", "-H", "Accept: application/vnd.github+json", "-H",
    "X-GitHub-Api-Version: 2022-11-28"],
    ["/user/packages/container/" ++ n ++ "/versions/" ++ v], rfl⟩

theorem isDeleteCall_versions (n : String) :
    (Event.run "gh" (getPackageVersionsArgs n)).isDeleteCall = false := by
  simp only [Event.isDeleteCall, getPackageVersionsArgs, decide_eq_false_iff_not]
  apply not_isInfix_of_not_mem
  have hp : "/user/packages/container/" ++ n ++ "/versions" ≠ "-X" := by
    have e : "/user/packages/container/" ++ n ++ "/versions" =
        "/user" ++ ("/packages/container/" ++ n ++ "/versions") := by
      rw [← String.append_assoc, ← String.append_assoc]
      rfl
    rw [e]
    exact slash_prefixed_ne_flag _
  have h1 : ("-X" : String) ≠ "api" := by decide
  have h2 : ("-X" : String) ≠ "-H" := by decide
  have h3 : ("-X" : String) ≠ "Accept: application/vnd.github+json" := by decide
  have h4 : ("-X" : String) ≠ "X-GitHub-Api-Version: 2022-11-28" := by decide
  simp [h1, h2, h3, h4, Ne.symm hp]

theorem delete_path_extends (n v : String) :
    (deletePackageVersionArgs n v).getLast? =
      (getPackageVersionsArgs n).getLast?.map (fun path => path ++ "/" ++ v) := by
  have e : ("/versions/" : String) = "/versions" ++ "/" := by decide
  have e2 : "/versions/" ++ v = "/versions" ++ ("/" ++ v) := by
    rw [e, String.append_assoc]
  simp [deletePackageVersionArgs, getPackageVersionsArgs, String.append_assoc, e2]

/-- C10. The helper is called with `api`, the two fixed headers and the path:
the package listing path for resolution, `/user/packages/container/n/versions`
for listing versions, and for deletion `-X DELETE` followed by that same path
extended by `/` and the version id. Each client function starts exactly one
subprocess, `gh` with these arguments, and only the call of
`deletePackageVersion` carries `-X DELETE`. -/
theorem helper_arguments (env : Env) (owner repo n v : String) :
    getPackageNameArgs =
        "api" :: ghHeaders ++ ["/user/packages?package_type=container"] ∧
      getPackageVersionsArgs n =
        "api" :: ghHeaders ++ ["/user/packages/container/" ++ n ++ "/versions"] ∧
      deletePackageVersionArgs n v =
        "api" :: ghHeaders ++
          ["-X", "DELETE", "/user/packages/container/" ++ n ++ "/versions/" ++ v] ∧
      (deletePackageVersionArgs n v).getLast? =
        (getPackageVersionsArgs n).getLast?.map (fun path => path ++ "/" ++ v) ∧
      (getPackageName env owner repo).2 = [Event.run "gh" getPackageNameArgs] ∧
      (getPackageVersions env n).2 = [Event.run "gh" (getPackageVersionsArgs n)] ∧
      (deletePackageVersion env n v).2 =
        [Event.run "gh" (deletePackageVersionArgs n v)] ∧
      (Event.run "gh" (deletePackageVersionArgs n v)).isDeleteCall = true ∧
      (Event.run "gh" getPackageNameArgs).isDeleteCall = false ∧
      (Event.run "gh" (getPackageVersionsArgs n)).isDeleteCall = false :=
  ⟨rfl, rfl, rfl, delete_path_extends n v, getPackageName_trace env owner repo,
    getPackageVersions_trace env n, deletePackageVersion_trace env n v,
    isDeleteCall_delete n v, by decide, isDeleteCall_versions n⟩

/-! ## The output list of the list handler -/

theorem foldl_set_some {α β : Type} (g : β → α) (xs : List (Nat × β)) (l : List α) :
    xs.foldl (fun (o : Option (List α)) iv => o.map fun l => l.set iv.1 (g iv.2)) (some l) =
      some (xs.foldl (fun l iv => l.set iv.1 (g iv.2)) l) := by
  induction xs generalizing l with
  | nil => rfl
  | cons x xs ih => simp only [List.foldl_cons, Option.map_some']; exact ih _

theorem take_succ_set {α : Type} (out : List α) (k : Nat) (x : α) (h : k < out.length) :
    (out.set k x).take (k + 1) = out.take k ++ [x] := by
  apply List.ext_getElem?
  intro i
  by_cases hi : i < k
  · have h1 : i < k + 1 := by omega
    have h2 : i ≠ k := by omega
    rw [List.getElem?_take_of_lt h1, List.getElem?_set_ne (Ne.symm h2),
      List.getElem?_append_left (by simp; omega), List.getElem?_take_of_lt hi]
  · by_cases hk : i = k
    · subst hk
      rw [List.getElem?_take_of_lt (by omega), List.getElem?_set_self h,
        List.getElem?_append_right (by simp)]
      simp [Nat.min_eq_left (Nat.le_of_lt h)]
    · have h3 : k + 1 ≤ i := by omega
      rw [List.getElem?_eq_none (by simp; omega), List.getElem?_eq_none (by simp; omega)]

/-- Invariant of the assignment loop: after the entries from index `k` on have
been assigned, the slice is its first `k` entries followed by the images. -/
theorem foldl_set_enumFrom {α β : Type} (g : β → α) (vs : List β) :
    ∀ (k : Nat) (out : List α), out.length = k + vs.length →
      (vs.enumFrom k).foldl (fun l iv => l.set iv.1 (g iv.2)) out =
        out.take k ++ vs.map g := by
  induction vs with
  | nil =>
    intro k out h
    simp only [List.enumFrom_nil, List.foldl_nil, List.map_nil, List.append_nil]
    exact (List.take_of_length_le (by simp at h; omega)).symm
  | cons v vs ih =>
    intro k out h
    have hk : k < out.length := by simp at h; omega
    simp only [List.enumFrom_cons, List.foldl_cons, List.map_cons]
    rw [ih (k + 1) (out.set k (g v)) (by simp at h ⊢; omega), take_succ_set out k (g v) hk]
    simp

theorem buildOutputVersions_eq_map (packageName : String) (versions : List Version) :
    buildOutputVersions packageName versions =
      some (versions.map fun v =>
        { Package := packageName, Name := v.Name, ID := v.ID }) := by
  unfold buildOutputVersions makeOutputVersions List.enum
  rw [foldl_set_some (fun v : Version =>
    ({ Package := packageName, Name := v.Name, ID := v.ID } : OutputVersion))]
  rw [foldl_set_enumFrom (fun v : Version =>
    ({ Package := packageName, Name := v.Name, ID := v.ID } : OutputVersion))
    versions 0 _ (by simp)]
  simp

theorem getPackageVersions_of_result (env : Env) (p : String) (vs : List Version)
    (h : (getPackageVersions env p).1 = (vs, none)) :
    getPackageVersions env p =
      ((vs, none), [Event.run "gh" (getPackageVersionsArgs p)]) :=
  Prod.ext h (getPackageVersions_trace env p)

/-- C8. In a run of the list handler in which the helper check, the argument
parse, the package resolution (to the name `p`) and the version listing (to
the list `vs`) succeed, the handler starts the two listing calls and then
hands to `json.MarshalIndent` a non-nil slice of the length of `vs`, in the
order of `vs`, whose `i`-th element is
`{package: p, name: vs[i].name, id: vs[i].id}`, and prints the text it gets
followed by a newline. The slice is the one the loop of the handler builds:
for `p = "pkg"` and `vs = [{v1,1},{v2,2}]` it is `[{pkg,v1,1},{pkg,v2,2}]`,
and for an empty `vs` it is the empty slice, not the nil slice. -/
theorem listCmdRun_builds_output (env : Env) (arg0 owner repo p : String)
    (vs : List Version)
    (hgh : (env.LookPath "gh").2 = none)
    (hparse : parseOwnerRepo arg0 = (owner, repo, none))
    (hname : (getPackageName env owner repo).1 = (p, none))
    (hvers : (getPackageVersions env p).1 = (vs, none)) :
    listCmdRun env [arg0] =
        [Event.run "gh" getPackageNameArgs, Event.run "gh" (getPackageVersionsArgs p)] ++
        (match env.MarshalIndent
            (some (vs.map fun v => { Package := p, Name := v.Name, ID := v.ID })) with
          | .ok jsonOutput => [Event.stdout (jsonOutput ++ "\n")]
          | .error err => [Event.fatal ("Error creating JSON output: " ++ err)]) ∧
      (∃ l : List OutputVersion, buildOutputVersions p vs = some l ∧
        l.length = vs.length ∧
        (∀ i : Nat, l[i]? =
          vs[i]?.map fun v => { Package := p, Name := v.Name, ID := v.ID }) ∧
        l = vs.map fun v => { Package := p, Name := v.Name, ID := v.ID }) ∧
      buildOutputVersions "pkg" [{ Name := "v1", ID := 1 }, { Name := "v2", ID := 2 }] =
        some [{ Package := "pkg", Name := "v1", ID := 1 },
              { Package := "pkg", Name := "v2", ID := 2 }] ∧
      buildOutputVersions p [] = some [] ∧
      buildOutputVersions p [] ≠ none := by
  have hc : checkGHInstalled env = none := by
    unfold checkGHInstalled
    rw [hgh]
  have hgn : getPackageName env owner repo =
      ((p, none), [Event.run "gh" getPackageNameArgs]) :=
    Prod.ext hname (getPackageName_trace env owner repo)
  have hgv := getPackageVersions_of_result env p vs hvers
  refine ⟨?_, ⟨_, buildOutputVersions_eq_map p vs, by simp, ?_, rfl⟩, by decide, ?_, ?_⟩
  · unfold listCmdRun
    simp only [hc, List.getElem?_cons_zero, hparse, hgn, hgv, buildOutputVersions_eq_map]
    cases env.MarshalIndent
      (some (vs.map fun v => { Package := p, Name := v.Name, ID := v.ID })) <;> simp
  · intro i
    simp [List.getElem?_map]
  · exact buildOutputVersions_eq_map p []
  · rw [buildOutputVersions_eq_map p []]
    simp

theorem listCmdRun_builds_output_witness :
    listCmdRun
        (sampleEnv true
          [{ Name := "pkg", Owner := { Login := "a" }, Repository := { FullName := "a/b" } }]
          [{ Name := "v1", ID := 1 }, { Name := "v2", ID := 2 }] "")
        ["a/b"] =
      [Event.run "gh" getPackageNameArgs,
        Event.run "gh" (getPackageVersionsArgs "pkg"),
        Event.stdout
          ("[\n  \x7b\n    \"package\": \"pkg\",\n    \"name\": \"v1\",\n    \"id\": 1\n  \x7d," ++
            "\n  \x7b\n    \"package\": \"pkg\",\n    \"name\": \"v2\",\n    \"id\": 2\n  \x7d\n]" ++
            "\n")] ∧
      listCmdRun
          (sampleEnv true
            [{ Name := "pkg", Owner := { Login := "a" }, Repository := { FullName := "a/b" } }]
            [] "")
          ["a/b"] =
        [Event.run "gh" getPackageNameArgs,
          Event.run "gh" (getPackageVersionsArgs "pkg"),
          Event.stdout "[]\n"] :=
  ⟨(listCmdRun_builds_output
      (sampleEnv true
        [{ Name := "pkg", Owner := { Login := "a" }, Repository := { FullName := "a/b" } }]
        [{ Name := "v1", ID := 1 }, { Name := "v2", ID := 2 }] "")
      "a/b" "a" "b" "pkg" [{ Name := "v1", ID := 1 }, { Name := "v2", ID := 2 }]
      rfl (by decide) (by decide) (by decide)).1.trans (by decide),
    (listCmdRun_builds_output
      (sampleEnv true
        [{ Name := "pkg", Owner := { Login := "a" }, Repository := { FullName := "a/b" } }]
        [] "")
      "a/b" "a" "b" "pkg" [] rfl (by decide) (by decide) (by decide)).1.trans (by decide)⟩

/-! ## The confirmation prompt -/

theorem ReadString_line (delim : Char) (a rest : List Char) (h : delim ∉ a) :
    bufio.ReadString delim (a ++ delim :: rest) = (a ++ [delim], none) := by
  induction a with
  | nil => simp [bufio.ReadString]
  | cons c cs ih =>
    have hc : c ≠ delim := fun e => h (by simp [e])
    have hcs : delim ∉ cs := fun e => h (by simp [e])
    simp [bufio.ReadString, hc, ih hcs]

theorem trim_concat_space (p : Char → Bool) (l : List Char) (x : Char) (hx : p x = true) :
    (List.dropWhile p (l ++ [x])).rdropWhile p = (List.dropWhile p l).rdropWhile p := by
  induction l with
  | nil => simp [List.dropWhile, hx]
  | cons c cs ih =>
    by_cases hc : p c = true
    · simpa [List.dropWhile, hc] using ih
    · have hc2 : p c = false := by simpa using hc
      simp only [List.cons_append, List.dropWhile, hc2]
      exact List.rdropWhile_concat_pos p (c :: cs) x hx

theorem TrimSpace_line (content : String) :
    strings.TrimSpace (String.mk (content.data ++ ['\n'])) = strings.TrimSpace content := by
  unfold strings.TrimSpace
  rw [trim_concat_space unicode.IsSpace content.data '\n' (by decide)]

/-- The answer of `confirmDeletion` when a whole line waits on standard
input: it returns, and its decision is taken on the content of the line. -/
theorem confirmDeletion_of_line (env : Env) (packageName versionID content rest : String)
    (hline : '\n' ∉ content.data) (hin : env.Stdin = content ++ "\n" ++ rest) :
    confirmDeletion env packageName versionID =
      (some (strings.ToLower env.caseTable (strings.TrimSpace content) == "y" ||
          strings.ToLower env.caseTable (strings.TrimSpace content) == "yes"),
        [Event.stdout (confirmPrompt packageName versionID), Event.readLine]) := by
  have hd : env.Stdin.data = content.data ++ '\n' :: rest.data := by
    rw [hin]
    simp [String.data_append]
  simp only [confirmDeletion, hd, ReadString_line '\n' content.data rest.data hline,
    TrimSpace_line]

theorem ToLower_ascii (caseTable : Char → Char) (s : String)
    (h : ∀ c ∈ s.data, c.toNat ≤ 0x7F) :
    strings.ToLower caseTable s = strings.ToLower id s := by
  unfold strings.ToLower
  congr 1
  apply List.map_congr_left
  intro c hc
  simp only [unicode.ToLower, if_pos (h c hc)]

theorem isYes_ascii (caseTable : Char → Char) (s : String)
    (h : ∀ c ∈ s.data, c.toNat ≤ 0x7F) : isYes caseTable s = isYes id s := by
  unfold isYes
  rw [ToLower_ascii caseTable s h]

theorem yesSpellings_line (content term : String)
    (hc : content ∈ yesSpellings) (ht : term ∈ ["\n", "\r\n"]) :
    ∃ line : String, content ++ term = line ++ "\n" ∧ '\n' ∉ line.data ∧
      (∀ c ∈ (strings.TrimSpace line).data, c.toNat ≤ 0x7F) ∧
      isYes id (strings.TrimSpace line) = true := by
  simp only [List.mem_cons, List.mem_singleton, List.not_mem_nil, or_false] at ht
  rcases ht with rfl | rfl
  · refine ⟨content, rfl, ?_⟩
    revert content
    decide
  · refine ⟨content ++ "\r", by rw [String.append_assoc]; rfl, ?_⟩
    revert content
    decide

/-- C6. When the line waiting on standard input is `y` or `yes` in any mixture
of upper and lower case, followed by the line terminator (`\n`, or `\r\n`),
`confirmDeletion` returns `true`. -/
theorem confirmDeletion_accepts_yes (env : Env) (packageName versionID : String)
    (content term rest : String)
    (hc : content ∈ yesSpellings) (ht : term ∈ ["\n", "\r\n"])
    (hin : env.Stdin = content ++ term ++ rest) :
    (confirmDeletion env packageName versionID).1 = some true := by
  obtain ⟨line, hl, hnl, hascii, hyes⟩ := yesSpellings_line content term hc ht
  rw [hl] at hin
  rw [confirmDeletion_of_line env packageName versionID line rest hnl hin]
  have h := isYes_ascii env.caseTable (strings.TrimSpace line) hascii
  rw [hyes] at h
  unfold isYes at h
  simp only [h]

theorem confirmDeletion_accepts_yes_witness :
    (confirmDeletion (sampleEnv true samplePackages [] "yEs\r\nmore") "tool" "7").1 =
      some true :=
  confirmDeletion_accepts_yes (sampleEnv true samplePackages [] "yEs\r\nmore") "tool" "7"
    "yEs" "\r\n" "more" (by decide) (by decide) (by decide)

theorem ascii_lower_cases (c : Char) (h : c.toNat ≤ 0x7F) :
    (unicode.ToLower id c = 'y' ↔ c = 'y' ∨ c = 'Y') ∧
      (unicode.ToLower id c = 'e' ↔ c = 'e' ∨ c = 'E') ∧
      (unicode.ToLower id c = 's' ↔ c = 's' ∨ c = 'S') := by
  obtain ⟨n, hn, rfl⟩ : ∃ n, n ≤ 0x7F ∧ c = Char.ofNat n :=
    ⟨c.toNat, h, (Char.ofNat_toNat c).symm⟩
  interval_cases n <;> decide

theorem lower_cases (caseTable : Char → Char)
    (htable : ∀ c : Char, 0x7F < c.toNat → caseTable c ∉ ['y', 'e', 's']) (c : Char) :
    (unicode.ToLower caseTable c = 'y' ↔ c = 'y' ∨ c = 'Y') ∧
      (unicode.ToLower caseTable c = 'e' ↔ c = 'e' ∨ c = 'E') ∧
      (unicode.ToLower caseTable c = 's' ↔ c = 's' ∨ c = 'S') := by
  by_cases h : c.toNat ≤ 0x7F
  · have e : unicode.ToLower caseTable c = unicode.ToLower id c := by
      simp only [unicode.ToLower, if_pos h]
    rw [e]
    exact ascii_lower_cases c h
  · have hlt : 0x7F < c.toNat := by omega
    have ht := htable c hlt
    have e : unicode.ToLower caseTable c = caseTable c := by
      simp only [unicode.ToLower, if_neg h]
    rw [e]
    simp only [List.mem_cons, List.mem_singleton, List.not_mem_nil, or_false, not_or] at ht
    have hne : ∀ x : Char, x.toNat ≤ 0x7F → c ≠ x := by
      intro x hx hcx
      rw [hcx] at h
      exact h hx
    have n1 := hne 'y' (by decide)
    have n2 := hne 'Y' (by decide)
    have n3 := hne 'e' (by decide)
    have n4 := hne 'E' (by decide)
    have n5 := hne 's' (by decide)
    have n6 := hne 'S' (by decide)
    simp [ht.1, ht.2.1, ht.2.2, n1, n2, n3, n4, n5, n6]

theorem lower_word_iff (f : Char → Char)
    (hy : ∀ c, f c = 'y' ↔ c = 'y' ∨ c = 'Y')
    (he : ∀ c, f c = 'e' ↔ c = 'e' ∨ c = 'E')
    (hs : ∀ c, f c = 's' ↔ c = 's' ∨ c = 'S') (l : List Char) :
    (l.map f = ['y'] ∨ l.map f = ['y', 'e', 's']) ↔
      l ∈ [['y'], ['Y'], ['y', 'e', 's'], ['y', 'e', 'S'], ['y', 'E', 's'],
        ['y', 'E', 'S'], ['Y', 'e', 's'], ['Y', 'e', 'S'], ['Y', 'E', 's'],
        ['Y', 'E', 'S']] := by
  rcases l with _ | ⟨a, _ | ⟨b, _ | ⟨c, _ | ⟨d, l⟩⟩⟩⟩
  · simp
  · simp [hy]
  · simp
  · simp only [List.map_cons, List.map_nil, List.cons.injEq, and_true, hy, he, hs,
      List.mem_cons, List.mem_singleton, List.not_mem_nil, or_false, List.cons_ne_nil,
      and_false, false_or, reduceCtorEq]
    tauto
  · simp

theorem isYes_iff (caseTable : Char → Char)
    (htable : ∀ c : Char, 0x7F < c.toNat → caseTable c ∉ ['y', 'e', 's']) (s : String) :
    isYes caseTable s = decide (s ∈ yesSpellings) := by
  have hm : s ∈ yesSpellings ↔ s.data ∈ yesSpellings.map String.data := by
    constructor
    · exact fun h => List.mem_map_of_mem _ h
    · intro h
      obtain ⟨t, ht, e⟩ := List.mem_map.mp h
      have hts : t = s := String.ext e
      exact hts ▸ ht
  have k1 : strings.ToLower caseTable s = "y" ↔
      s.data.map (unicode.ToLower caseTable) = ['y'] :=
    ⟨fun h => congrArg String.data h, fun h => congrArg String.mk h⟩
  have k2 : strings.ToLower caseTable s = "yes" ↔
      s.data.map (unicode.ToLower caseTable) = ['y', 'e', 's'] :=
    ⟨fun h => congrArg String.data h, fun h => congrArg String.mk h⟩
  rw [Bool.eq_iff_iff]
  simp only [isYes, Bool.or_eq_true, beq_iff_eq, decide_eq_true_eq, k1, k2, hm]
  exact lower_word_iff (unicode.ToLower caseTable)
    (fun c => (lower_cases caseTable htable c).1)
    (fun c => (lower_cases caseTable htable c).2.1)
    (fun c => (lower_cases caseTable htable c).2.2) s.data

theorem id_table (c : Char) (h : 0x7F < c.toNat) : id c ∉ ['y', 'e', 's'] := by
  intro hm
  have hle : c.toNat ≤ 0x7F := by
    simp only [id, List.mem_cons, List.mem_singleton, List.not_mem_nil, or_false] at hm
    rcases hm with rfl | rfl | rfl <;> decide
  omega

/-- C7, refuted as stated. The line ` y` (a space, then `y`) is not a spelling
of `y` or `yes`, yet `confirmDeletion` returns `true` on it, because the answer
is trimmed of white space before it is compared; so a content other than a
case-insensitive `y` or `yes` does not always cancel. -/
theorem confirmDeletion_accepts_padded_yes :
    " y" ∉ yesSpellings ∧
      (sampleEnv true samplePackages [] " y\n").Stdin = " y" ++ "\n" ++ "" ∧
      (confirmDeletion (sampleEnv true samplePackages [] " y\n") "tool" "7").1 = some true ∧
      ¬ (∀ (env : Env) (packageName versionID content rest : String),
          '\n' ∉ content.data → env.Stdin = content ++ "\n" ++ rest →
          content ∉ yesSpellings →
          (confirmDeletion env packageName versionID).1 = some false) := by
  refine ⟨by decide, by decide, by decide, ?_⟩
  intro h
  have hf := h (sampleEnv true samplePackages [] " y\n") "tool" "7" " y" ""
    (by decide) (by decide) (by decide)
  revert hf
  decide

/-- C7, amended. For every line waiting on standard input, `confirmDeletion`
returns, and it returns `true` exactly when the content of the line with its
leading and trailing white space removed is `y` or `yes` in some mixture of
upper and lower case; on every other content, the empty line included, it
returns `false`. The case table of the Unicode database, which is outside the
repository, is taken to map no rune above ASCII to `y`, `e` or `s`. -/
theorem confirmDeletion_decision (env : Env)
    (packageName versionID content rest : String)
    (hline : '\n' ∉ content.data) (hin : env.Stdin = content ++ "\n" ++ rest)
    (htable : ∀ c : Char, 0x7F < c.toNat → env.caseTable c ∉ ['y', 'e', 's']) :
    (confirmDeletion env packageName versionID).1 =
      some (decide (strings.TrimSpace content ∈ yesSpellings)) := by
  rw [confirmDeletion_of_line env packageName versionID content rest hline hin]
  have h := isYes_iff env.caseTable htable (strings.TrimSpace content)
  unfold isYes at h
  simp only [h]

theorem confirmDeletion_decision_witness :
    (confirmDeletion (sampleEnv true samplePackages [] "\n") "tool" "7").1 = some false ∧
      (confirmDeletion (sampleEnv true samplePackages [] "yes please\n") "tool" "7").1 =
        some false ∧
      (confirmDeletion (sampleEnv true samplePackages [] "\tYES \n") "tool" "7").1 =
        some true :=
  ⟨confirmDeletion_decision (sampleEnv true samplePackages [] "\n") "tool" "7" "" ""
      (by decide) (by decide) id_table,
    confirmDeletion_decision (sampleEnv true samplePackages [] "yes please\n") "tool" "7"
      "yes please" "" (by decide) (by decide) id_table,
    confirmDeletion_decision (sampleEnv true samplePackages [] "\tYES \n") "tool" "7"
      "\tYES " "" (by decide) (by decide) id_table⟩

/-! ## The delete handler -/

theorem confirmDeletion_trace_of_some (env : Env) (packageName versionID : String)
    (b : Bool) (h : (confirmDeletion env packageName versionID).1 = some b) :
    confirmDeletion env packageName versionID =
      (some b, [Event.stdout (confirmPrompt packageName versionID), Event.readLine]) := by
  unfold confirmDeletion at h ⊢
  split at h
  · simp at h
  · rename_i response hr
    simp only [hr]
    simp only [Option.some.injEq] at h
    rw [h]

theorem ReadString_error_iff (delim : Char) (l : List Char) :
    ((bufio.ReadString delim l).2 = none ↔ delim ∈ l) ∧
      (delim ∉ l → (bufio.ReadString delim l).2 = some "EOF") := by
  induction l with
  | nil => simp [bufio.ReadString]
  | cons c cs ih =>
    by_cases hc : c = delim
    · subst hc
      simp [bufio.ReadString]
    · have hne : ¬ delim = c := fun e => hc e.symm
      simp only [bufio.ReadString, if_neg hc, List.mem_cons, hne, false_or, not_false_eq_true,
        true_and]
      exact ih

theorem confirmDeletion_none_iff (env : Env) (packageName versionID : String) :
    (confirmDeletion env packageName versionID).1 = none ↔ '\n' ∉ env.Stdin.data := by
  have h := (ReadString_error_iff '\n' env.Stdin.data).1
  unfold confirmDeletion
  split
  · rename_i response err hr
    have h2 : (bufio.ReadString '\n' env.Stdin.data).2 = some err := by rw [hr]
    constructor
    · intro _ hmem
      rw [h.mpr hmem] at h2
      simp at h2
    · intro _
      rfl
  · rename_i response hr
    have h2 : (bufio.ReadString '\n' env.Stdin.data).2 = none := by rw [hr]
    constructor
    · intro hn
      simp at hn
    · intro hn
      exact absurd (h.mp h2) hn

theorem confirmDeletion_of_eof (env : Env) (packageName versionID : String)
    (h : '\n' ∉ env.Stdin.data) :
    confirmDeletion env packageName versionID =
      (none, [Event.stdout (confirmPrompt packageName versionID), Event.readLine,
        Event.fatal "Error reading input: EOF"]) := by
  have h2 := (ReadString_error_iff '\n' env.Stdin.data).2 h
  unfold confirmDeletion
  split
  · rename_i response err hr
    rw [hr] at h2
    simp only [Option.some.injEq] at h2
    subst h2
    rfl
  · rename_i response hr
    rw [hr] at h2
    simp at h2

/-- The run of the delete handler once `confirmDeletion` has returned `b`. -/
theorem deleteCmdRun_of_decision (env : Env)
    (arg0 versionID owner repo packageName : String) (b : Bool)
    (hgh : (env.LookPath "gh").2 = none)
    (hparse : parseOwnerRepo arg0 = (owner, repo, none))
    (hname : (getPackageName env owner repo).1 = (packageName, none))
    (hconf : (confirmDeletion env packageName versionID).1 = some b) :
    deleteCmdRun env [arg0, versionID] =
        [Event.run "gh" getPackageNameArgs,
          Event.stdout (confirmPrompt packageName versionID), Event.readLine] ++
        (if b then
          Event.run "gh" (deletePackageVersionArgs packageName versionID) ::
            (match (deletePackageVersion env packageName versionID).1 with
              | none =>
                [Event.stdout ("Successfully deleted image " ++ packageName ++
                  " version " ++ versionID ++ "\n")]
              | some err => [Event.fatal err])
        else [Event.stdout "Deletion cancelled.\n"]) ∧
      (b = true →
        (deleteCmdRun env [arg0, versionID]).filter Event.isDeleteCall =
            [Event.run "gh" (deletePackageVersionArgs packageName versionID)] ∧
          ((deletePackageVersion env packageName versionID).1 = none →
            (deleteCmdRun env [arg0, versionID]).getLast? =
              some (Event.stdout ("Successfully deleted image " ++ packageName ++
                " version " ++ versionID ++ "\n")))) ∧
      (b = false →
        (deleteCmdRun env [arg0, versionID]).getLast? =
            some (Event.stdout "Deletion cancelled.\n") ∧
          (deleteCmdRun env [arg0, versionID]).filter Event.isDeleteCall = [] ∧
          (deleteCmdRun env [arg0, versionID]).filter Event.isRun =
            [Event.run "gh" getPackageNameArgs]) := by
  have hc : checkGHInstalled env = none := by
    unfold checkGHInstalled
    rw [hgh]
  have hgn : getPackageName env owner repo =
      ((packageName, none), [Event.run "gh" getPackageNameArgs]) :=
    Prod.ext hname (getPackageName_trace env owner repo)
  have hcd := confirmDeletion_trace_of_some env packageName versionID b hconf
  have hdel : deletePackageVersion env packageName versionID =
      ((deletePackageVersion env packageName versionID).1,
        [Event.run "gh" (deletePackageVersionArgs packageName versionID)]) :=
    Prod.ext rfl (deletePackageVersion_trace env packageName versionID)
  have hlist : (Event.run "gh" getPackageNameArgs).isDeleteCall = false := by decide
  have hdc := isDeleteCall_delete packageName versionID
  have htrace : deleteCmdRun env [arg0, versionID] =
      [Event.run "gh" getPackageNameArgs,
        Event.stdout (confirmPrompt packageName versionID), Event.readLine] ++
      (if b then
        Event.run "gh" (deletePackageVersionArgs packageName versionID) ::
          (match (deletePackageVersion env packageName versionID).1 with
            | none =>
              [Event.stdout ("Successfully deleted image " ++ packageName ++
                " version " ++ versionID ++ "\n")]
            | some err => [Event.fatal err])
      else [Event.stdout "Deletion cancelled.\n"]) := by
    unfold deleteCmdRun
    simp only [hc, List.getElem?_cons_zero, hparse, hgn, List.getElem?_cons_succ, hcd]
    cases b
    · simp
    · rw [hdel]
      cases (deletePackageVersion env packageName versionID).1 <;> simp
  have hso : ∀ t : String, (Event.stdout t).isDeleteCall = false := fun _ => rfl
  have hfa : ∀ m : String, (Event.fatal m).isDeleteCall = false := fun _ => rfl
  have hrl : Event.readLine.isDeleteCall = false := rfl
  refine ⟨htrace, ?_, ?_⟩
  · intro hb
    subst hb
    rw [htrace]
    constructor
    · cases (deletePackageVersion env packageName versionID).1 <;>
        simp [List.filter_cons, hlist, hdc, hso, hfa, hrl]
    · intro hok
      rw [hok]
      simp
  · intro hb
    subst hb
    rw [htrace]
    simp [List.filter_cons, hlist, hso, hrl, Event.isRun]

/-- C5, refuted as stated. With the answer `n` on standard input and no line
terminator after it, the helper check, the argument parse and the package
resolution succeed and the answer is not affirmative, yet the run does not
print `Deletion cancelled.`: `confirmDeletion` ends the process with
`Error reading input: EOF`. -/
theorem deleteCmdRun_read_error_prints_no_cancellation :
    ((sampleEnv true samplePackages [] "n").LookPath "gh").2 = none ∧
      parseOwnerRepo "a/b" = ("a", "b", none) ∧
      (getPackageName (sampleEnv true samplePackages [] "n") "a" "b").1 = ("tool", none) ∧
      "n" ∉ yesSpellings ∧
      (confirmDeletion (sampleEnv true samplePackages [] "n") "tool" "7").1 ≠ some true ∧
      deleteCmdRun (sampleEnv true samplePackages [] "n") ["a/b", "7"] =
        [Event.run "gh" getPackageNameArgs, Event.stdout (confirmPrompt "tool" "7"),
          Event.readLine, Event.fatal "Error reading input: EOF"] ∧
      Event.stdout "Deletion cancelled.\n" ∉
        deleteCmdRun (sampleEnv true samplePackages [] "n") ["a/b", "7"] := by
  decide

/-- C5, amended. In a run of the delete handler in which the helper check, the
argument parse and the package resolution succeed, `confirmDeletion` returns
exactly when standard input holds a line terminator. When it returns `true`,
the only deletion call of the run is the one call of `deletePackageVersion`
with the resolved package name and the given version id, and when that call
succeeds the run ends by printing
`Successfully deleted image <package> version <id>`. When it returns `false`,
the run ends by printing `Deletion cancelled.` and contains no deletion call:
its only subprocess is the package listing. When standard input ends before a
line terminator, the run ends with the fatal error `Error reading input: EOF`,
prints neither message and contains no deletion call. -/
theorem deleteCmdRun_outcomes (env : Env)
    (arg0 versionID owner repo packageName : String)
    (hgh : (env.LookPath "gh").2 = none)
    (hparse : parseOwnerRepo arg0 = (owner, repo, none))
    (hname : (getPackageName env owner repo).1 = (packageName, none)) :
    ((confirmDeletion env packageName versionID).1 = some true →
        (deleteCmdRun env [arg0, versionID]).filter Event.isDeleteCall =
            [Event.run "gh" (deletePackageVersionArgs packageName versionID)] ∧
          (deleteCmdRun env [arg0, versionID]).take 4 =
            [Event.run "gh" getPackageNameArgs,
              Event.stdout (confirmPrompt packageName versionID), Event.readLine,
              Event.run "gh" (deletePackageVersionArgs packageName versionID)] ∧
          ((deletePackageVersion env packageName versionID).1 = none →
            deleteCmdRun env [arg0, versionID] =
              [Event.run "gh" getPackageNameArgs,
                Event.stdout (confirmPrompt packageName versionID), Event.readLine,
                Event.run "gh" (deletePackageVersionArgs packageName versionID),
                Event.stdout ("Successfully deleted image " ++ packageName ++
                  " version " ++ versionID ++ "\n")])) ∧
      ((confirmDeletion env packageName versionID).1 = some false →
        deleteCmdRun env [arg0, versionID] =
            [Event.run "gh" getPackageNameArgs,
              Event.stdout (confirmPrompt packageName versionID), Event.readLine,
              Event.stdout "Deletion cancelled.\n"] ∧
          (deleteCmdRun env [arg0, versionID]).filter Event.isDeleteCall = [] ∧
          (deleteCmdRun env [arg0, versionID]).filter Event.isRun =
            [Event.run "gh" getPackageNameArgs]) ∧
      ((confirmDeletion env packageName versionID).1 = none ↔ '\n' ∉ env.Stdin.data) ∧
      ('\n' ∉ env.Stdin.data →
        deleteCmdRun env [arg0, versionID] =
            [Event.run "gh" getPackageNameArgs,
              Event.stdout (confirmPrompt packageName versionID), Event.readLine,
              Event.fatal "Error reading input: EOF"] ∧
          (deleteCmdRun env [arg0, versionID]).filter Event.isDeleteCall = [] ∧
          (deleteCmdRun env [arg0, versionID]).filter Event.isRun =
            [Event.run "gh" getPackageNameArgs]) := by
  have hlist : (Event.run "gh" getPackageNameArgs).isDeleteCall = false := by decide
  have hso : ∀ t : String, (Event.stdout t).isDeleteCall = false := fun _ => rfl
  have hfa : ∀ m : String, (Event.fatal m).isDeleteCall = false := fun _ => rfl
  have hrl : Event.readLine.isDeleteCall = false := rfl
  refine ⟨?_, ?_, confirmDeletion_none_iff env packageName versionID, ?_⟩
  · intro hconf
    have h := deleteCmdRun_of_decision env arg0 versionID owner repo packageName true
      hgh hparse hname hconf
    refine ⟨(h.2.1 rfl).1, ?_, ?_⟩
    · rw [h.1]
      simp
    · intro hok
      rw [h.1, hok]
      simp
  · intro hconf
    have h := deleteCmdRun_of_decision env arg0 versionID owner repo packageName false
      hgh hparse hname hconf
    refine ⟨?_, (h.2.2 rfl).2.1, (h.2.2 rfl).2.2⟩
    rw [h.1]
    simp
  · intro heof
    have hc : checkGHInstalled env = none := by
      unfold checkGHInstalled
      rw [hgh]
    have hgn : getPackageName env owner repo =
        ((packageName, none), [Event.run "gh" getPackageNameArgs]) :=
      Prod.ext hname (getPackageName_trace env owner repo)
    have hcd := confirmDeletion_of_eof env packageName versionID heof
    have htrace : deleteCmdRun env [arg0, versionID] =
        [Event.run "gh" getPackageNameArgs,
          Event.stdout (confirmPrompt packageName versionID), Event.readLine,
          Event.fatal "Error reading input: EOF"] := by
      unfold deleteCmdRun
      simp only [hc, List.getElem?_cons_zero, hparse, hgn, List.getElem?_cons_succ, hcd]
      simp
    rw [htrace]
    simp [List.filter_cons, hlist, hso, hfa, hrl, Event.isRun]

theorem deleteCmdRun_outcomes_witness :
    (deleteCmdRun (sampleEnv true samplePackages [] "Y\n") ["a/b", "7"]).filter
        Event.isDeleteCall = [Event.run "gh" (deletePackageVersionArgs "tool" "7")] ∧
      deleteCmdRun (sampleEnv true samplePackages [] "Y\n") ["a/b", "7"] =
        [Event.run "gh" getPackageNameArgs, Event.stdout (confirmPrompt "tool" "7"),
          Event.readLine, Event.run "gh" (deletePackageVersionArgs "tool" "7"),
          Event.stdout "Successfully deleted image tool version 7\n"] ∧
      deleteCmdRun (sampleEnv true samplePackages [] "n\n") ["a/b", "7"] =
        [Event.run "gh" getPackageNameArgs, Event.stdout (confirmPrompt "tool" "7"),
          Event.readLine, Event.stdout "Deletion cancelled.\n"] ∧
      deleteCmdRun (sampleEnv true samplePackages [] "y") ["a/b", "7"] =
        [Event.run "gh" getPackageNameArgs, Event.stdout (confirmPrompt "tool" "7"),
          Event.readLine, Event.fatal "Error reading input: EOF"] :=
  ⟨((deleteCmdRun_outcomes (sampleEnv true samplePackages [] "Y\n")
      "a/b" "7" "a" "b" "tool" rfl (by decide) (by decide)).1 (by decide)).1,
    ((deleteCmdRun_outcomes (sampleEnv true samplePackages [] "Y\n")
      "a/b" "7" "a" "b" "tool" rfl (by decide) (by decide)).1 (by decide)).2.2 (by decide),
    ((deleteCmdRun_outcomes (sampleEnv true samplePackages [] "n\n")
      "a/b" "7" "a" "b" "tool" rfl (by decide) (by decide)).2.1 (by decide)).1,
    ((deleteCmdRun_outcomes (sampleEnv true samplePackages [] "y")
      "a/b" "7" "a" "b" "tool" rfl (by decide) (by decide)).2.2.2 (by decide)).1⟩

end GhcrCli
